import Mathlib

set_option maxHeartbeats 1000000
set_option maxRecDepth 20000

/-!
Verification development for the batch PDF figure/caption extraction pipeline
(`batch_extract_figs_captions.py`).  Python strings are modelled as `List Char`,
Python floats as `ℚ`, and the fallible PyMuPDF accesses as `Option` values.
The `difflib.SequenceMatcher(...).ratio()` similarity (an external library
collaborator) is modelled as an abstract function parameter `ratio`.
-/

/-- Characters treated as whitespace: the ASCII fragment of Python's `str.strip`
whitespace set and of the regex class `\s`. -/
def isPySpace (c : Char) : Bool :=
  c = ' ' || c = '\t' || c = '\n' || c = '\r' || c = '\x0b' || c = '\x0c'

/-- The punctuation set of `normalize_for_match`, from the character class in
`re.sub(r"[_\-–—:,.;/\\()\[\]{}<>|!?\"'`~^*+=]+", " ", s)`.  A few characters are
spelled via their code points to keep them out of character-literal syntax. -/
def isPunct (c : Char) : Bool :=
  c = '_' || c = '-' || c = '–' || c = '—' || c = ':' || c = ',' || c = '.' || c = ';' ||
  c = '/' || c = '\\' || c = '(' || c = ')' || c = '[' || c = ']' ||
  c = Char.ofNat 123 || c = Char.ofNat 125 ||
  c = '<' || c = '>' || c = '|' || c = '!' || c = '?' || c = Char.ofNat 34 ||
  c = Char.ofNat 39 || c = Char.ofNat 96 || c = '~' || c = '^' || c = '*' || c = '+' || c = '='

/-- ASCII lowercasing, modelling Python `str.lower` (the inputs handled by the
script are ASCII; other code points are left unchanged). -/
def lowerChar (c : Char) : Char :=
  if 65 ≤ c.toNat ∧ c.toNat ≤ 90 then Char.ofNat (c.toNat + 32) else c

/-- Replace every maximal run of characters satisfying `p` by a single space.
This is the effect of `re.sub(r"[...]+", " ", s)` for a character class `p`:
the run's single replacement space is emitted at the end of the run. -/
def replRuns (p : Char → Bool) : List Char → List Char
  | [] => []
  | [c] => if p c then [' '] else [c]
  | c :: d :: cs =>
    if p c then
      (if p d then replRuns p (d :: cs) else ' ' :: replRuns p (d :: cs))
    else c :: replRuns p (d :: cs)

/-- Python `str.strip()`: drop leading and trailing whitespace. -/
def pyStrip (l : List Char) : List Char :=
  (((l.dropWhile isPySpace).reverse).dropWhile isPySpace).reverse

/-- Embedding of `normalize_for_match`: lowercase, replace punctuation runs by a
space, collapse whitespace runs to a space, and strip. -/
def normalize_for_match (s : List Char) : List Char :=
  pyStrip (replRuns isPySpace (replRuns isPunct (s.map lowerChar)))

/-- If `pre` is a leading segment of `l`, return the remainder of `l`. -/
def stripPre : List Char → List Char → Option (List Char)
  | [], l => some l
  | _ :: _, [] => none
  | p :: ps, c :: cs => if p = c then stripPre ps cs else none

/-- Boolean prefix test, via `stripPre`. -/
def startsL (pre l : List Char) : Bool := (stripPre pre l).isSome

/-- Boolean substring test: does `needle` occur inside `hay`? -/
def containsSub : List Char → List Char → Bool
  | [], needle => needle.isEmpty
  | c :: t, needle => startsL needle (c :: t) || containsSub t needle

/-! ## Fuzzy matcher (`best_fuzzy_match`) -/

/-- Embedding of `best_fuzzy_match(target, pool, threshold)`.  The similarity
`difflib.SequenceMatcher(None, a, b).ratio()` is an external library call and is
passed in as the abstract function `ratio`, applied exactly where the source
applies it (to the normalized target and normalized candidate). -/
def best_fuzzy_match (ratio : List Char → List Char → ℚ)
    (target : List Char) (pool : List (List Char)) (threshold : ℚ) :
    List Char × ℚ :=
  if target = [] then ([], 0)
  else
    let tn := normalize_for_match target
    let r := pool.foldl (fun acc cand =>
      let score := ratio tn (normalize_for_match cand)
      if acc.2 < score then (cand, score) else acc) ([], 0)
    if threshold ≤ r.2 then r else ([], 0)

/-- A concrete similarity function used to instantiate the abstract `ratio` in
closed statements.  It agrees with `SequenceMatcher.ratio` on the inputs used
there: identical sequences score `1.0`, sequences with no common character
score `0.0`. -/
def ratioEq (a b : List Char) : ℚ := if a = b then 1 else 0

/-! ## Caption extractor (`extract_captions`)

The regex
`(Figure\s+[S]?\d+[A-Za-z]?(?:\.[A-Za-z])?\s*[\.:].*?)`
`(?=(?:\nFigure\s+[S]?\d+)|\nSTAR★METHODS|\nREFERENCES|\nArticle|\Z)`
with `re.DOTALL` is embedded as an explicit scanner: a deterministic matcher for
the figure-label header (including the two genuine backtracking points of the
optional letter and optional `.letter` groups), and a minimal extension of the
lazy `.*?` body up to the first position where one of the lookahead
alternatives (or end of text) matches. -/

/-- ASCII decimal digit, the regex class `\d` on the script's inputs. -/
def isDigitC (c : Char) : Bool := '0' ≤ c && c ≤ '9'

/-- ASCII letter, the regex class `[A-Za-z]`. -/
def isAlphaC (c : Char) : Bool := ('A' ≤ c && c ≤ 'Z') || ('a' ≤ c && c ≤ 'z')

/-- Word character for the regex boundary `\b` (ASCII fragment of `\w`). -/
def isWordC (c : Char) : Bool := isAlphaC c || isDigitC c || c = '_'

/-- The literal `Figure`. -/
def figureChars : List Char := ['F', 'i', 'g', 'u', 'r', 'e']

/-- Matcher for the trailing `\s*[\.:]` of the caption-label regex: greedy
whitespace followed by a period or colon.  Returns `(consumed, rest)`. -/
def matchDelim (l : List Char) : Option (List Char × List Char) :=
  let ws := l.takeWhile isPySpace
  match l.dropWhile isPySpace with
  | c :: rest => if c = '.' || c = ':' then some (ws ++ [c], rest) else none
  | [] => none

/-- Matcher for `(?:\.[A-Za-z])?\s*[\.:]`: try consuming a `.letter` sub-part
first and fall back (regex backtracking) to matching the delimiter directly. -/
def matchDotL (l : List Char) : Option (List Char × List Char) :=
  match l with
  | '.' :: c :: rest =>
    if isAlphaC c then
      match matchDelim rest with
      | some (t, r) => some ('.' :: c :: t, r)
      | none => matchDelim l
    else matchDelim l
  | _ => matchDelim l

/-- Matcher for `[A-Za-z]?(?:\.[A-Za-z])?\s*[\.:]`: try consuming the optional
trailing letter first and fall back to the rest of the pattern without it. -/
def matchOptLetter (l : List Char) : Option (List Char × List Char) :=
  match l with
  | c :: rest =>
    if isAlphaC c then
      match matchDotL rest with
      | some (t, r) => some (c :: t, r)
      | none => matchDotL l
    else matchDotL l
  | [] => none

/-- Deterministic matcher for the caption-label header
`Figure\s+[S]?\d+[A-Za-z]?(?:\.[A-Za-z])?\s*[\.:]` at the head of `l`.
Returns `(header, rest)`.  The greedy `\s+` and `\d+` need no backtracking
because a shortened run leaves a whitespace/digit character that no later part
of the pattern can consume. -/
def matchHeader (l : List Char) : Option (List Char × List Char) :=
  match stripPre figureChars l with
  | none => none
  | some r1 =>
    let ws := r1.takeWhile isPySpace
    let r2 := r1.dropWhile isPySpace
    if ws.isEmpty then none
    else
      match r2 with
      | 'S' :: r3 =>
        let ds := r3.takeWhile isDigitC
        let r4 := r3.dropWhile isDigitC
        if ds.isEmpty then none
        else
          match matchOptLetter r4 with
          | some (t2, rest) => some (figureChars ++ ws ++ 'S' :: (ds ++ t2), rest)
          | none => none
      | _ =>
        let ds := r2.takeWhile isDigitC
        let r4 := r2.dropWhile isDigitC
        if ds.isEmpty then none
        else
          match matchOptLetter r4 with
          | some (t2, rest) => some (figureChars ++ ws ++ ds ++ t2, rest)
          | none => none

/-- The lookahead alternative `\nFigure\s+[S]?\d+` at the head of `l`. -/
def lookFig (l : List Char) : Bool :=
  match stripPre ('\n' :: figureChars) l with
  | none => false
  | some r =>
    !(r.takeWhile isPySpace).isEmpty &&
      (match r.dropWhile isPySpace with
       | 'S' :: d :: _ => isDigitC d
       | d :: _ => isDigitC d
       | [] => false)

/-- The full lookahead of the caption regex: the next figure label or one of
the fixed section-boundary markers. -/
def lookTerm (l : List Char) : Bool :=
  lookFig l || startsL ('\n' :: "STAR★METHODS".data) l ||
    startsL ('\n' :: "REFERENCES".data) l || startsL ('\n' :: "Article".data) l

/-- Lazy-body extension: split `l` as `(body, rest)` where `body` is the
shortest prefix such that `rest` begins with a lookahead match or is empty
(the `\Z` alternative). -/
def findEnd : List Char → List Char × List Char
  | [] => ([], [])
  | c :: cs =>
    if lookTerm (c :: cs) then ([], c :: cs)
    else
      let p := findEnd cs
      (c :: p.1, p.2)

/-- `finditer` scan: find the leftmost header match, extend its lazy body to
the first lookahead position, emit the match, and continue scanning after it
(matches do not overlap; the lookahead is not consumed).  `fuel` bounds the
recursion and is instantiated with the text length, which suffices because
every step consumes at least one character. -/
def scanCapsF : Nat → List Char → List (List Char)
  | 0, _ => []
  | _ + 1, [] => []
  | fuel + 1, c :: cs =>
    match matchHeader (c :: cs) with
    | some (hdr, r) =>
      let p := findEnd r
      (hdr ++ p.1) :: scanCapsF fuel p.2
    | none => scanCapsF fuel cs

/-- The literal `Fig.`. -/
def figDotChars : List Char := ['F', 'i', 'g', '.']

/-- The replacement text `Figure ` of the `Fig.` normalization. -/
def figureSpChars : List Char := figureChars ++ [' ']

/-- `re.sub(r"\bFig\.\s*", "Figure ", text)`: rewrite each abbreviated label
`Fig.` (at a word boundary) plus following whitespace to `Figure `.  `prevW`
tracks whether the previous original character was a word character (for the
`\b` boundary); `fuel` is instantiated with the text length. -/
def figSubAux : Nat → Bool → List Char → List Char
  | 0, _, l => l
  | _ + 1, _, [] => []
  | fuel + 1, prevW, c :: cs =>
    if prevW then c :: figSubAux fuel (isWordC c) cs
    else
      match stripPre figDotChars (c :: cs) with
      | some r => figureSpChars ++ figSubAux fuel false (r.dropWhile isPySpace)
      | none => c :: figSubAux fuel (isWordC c) cs

/-- Step 1 of `extract_captions`: normalize `Fig.` to `Figure `. -/
def figSub (l : List Char) : List Char := figSubAux l.length false l

/-- `re.sub(r"[ \t]+\n", "\n", cap)`: delete every space/tab that is separated
from a following newline only by spaces/tabs.  (Folding from the right: a
space/tab is dropped exactly when the processed remainder starts with `\n`.) -/
def sub1 : List Char → List Char
  | [] => []
  | c :: cs =>
    let r := sub1 cs
    if (c = ' ' || c = '\t') && r.head? = some '\n' then r else c :: r

/-- `re.sub(r"\n{3,}", "\n\n", cap)`: collapse runs of three or more newlines
to exactly two.  (Folding from the right: a newline is dropped exactly when two
newlines immediately follow it.) -/
def sub2 : List Char → List Char
  | [] => []
  | c :: cs =>
    let r := sub2 cs
    if c = '\n' && r.head? = some '\n' && r.tail.head? = some '\n' then r
    else c :: r

/-- Embedding of `extract_captions(full_text)`. -/
def extract_captions (t : List Char) : List (List Char) :=
  let n := figSub t
  (scanCapsF n.length n).map (fun cap => sub2 (sub1 (pyStrip cap)))

/-! ## Title extractor (`extract_pdf_title`)

A parsed PDF is modelled by its metadata title (`None` when absent or empty)
and its first page, a nesting of blocks / lines / spans where each span is a
`(font size, text)` pair, exactly the fields the source reads from
`page.get_text("dict")`.  `firstPage = none` models the `except Exception`
branch: any internal error while reading the first page. -/

structure PdfDoc where
  metaTitle : Option (List Char)
  firstPage : Option (List (List (List (ℚ × List Char))))
  deriving DecidableEq

/-- Exact rational subtraction, written out on numerators and denominators so
that concrete instances reduce (the library subtraction is `irreducible`).
`ratSub_eq` below proves it equal to `a - b`. -/
def ratSub (a b : ℚ) : ℚ := mkRat (a.num * b.den - b.num * a.den) (a.den * b.den)

/-- Exact rational absolute value in the same computable style; `ratAbs_eq`
below proves it equal to `|q|`. -/
def ratAbs (q : ℚ) : ℚ := if q.num < 0 then mkRat (-q.num) q.den else q

/-- The `bad_starts` boilerplate labels of `extract_pdf_title`. -/
def badStarts : List (List Char) :=
  ["Graphical abstract".data, "Highlights".data, "Article".data, "OPEN ACCESS".data,
   "Summary".data, "In brief".data, "STAR★METHODS".data, "REFERENCES".data]

/-- Does the candidate start with one of the boilerplate labels? -/
def startsBad (cand : List Char) : Bool := badStarts.any (fun b => startsL b cand)

/-- Stable insertion of a span into a size-descending list: the new element is
placed before the first element whose size it reaches.  Since the new element
originates earlier in the span list than everything already inserted (the sort
below folds from the right), equal sizes keep their original first-page order,
exactly like Python's stable `list.sort(key=..., reverse=True)`. -/
def insOrd (x : ℚ × List Char) : List (ℚ × List Char) → List (ℚ × List Char)
  | [] => [x]
  | y :: ys => if y.1 ≤ x.1 then x :: y :: ys else y :: insOrd x ys

/-- Stable size-descending sort, modelling `spans.sort(key=lambda x: x[0],
reverse=True)`. -/
def sortDesc (l : List (ℚ × List Char)) : List (ℚ × List Char) := l.foldr insOrd []

/-- Flattening of the first page's blocks/lines/spans into `(size, stripped
text)` pairs, keeping only spans with non-blank text — the span-collection
loop of `extract_pdf_title`. -/
def flattenSpans (blocks : List (List (List (ℚ × List Char)))) : List (ℚ × List Char) :=
  blocks.flatMap (fun b => b.flatMap (fun line => line.filterMap (fun sp =>
    let t := pyStrip sp.2
    if t.isEmpty then none else some (sp.1, t))))

/-- Embedding of `extract_pdf_title(doc)`. -/
def extract_pdf_title (doc : PdfDoc) : Option (List Char) :=
  let meta := pyStrip (doc.metaTitle.getD [])
  if !meta.isEmpty then some meta
  else
    match doc.firstPage with
    | none => none
    | some blocks =>
      match sortDesc (flattenSpans blocks) with
      | [] => none
      | x :: rest =>
        let pieces := ((x :: rest).filter
          (fun sp => ratAbs (ratSub sp.1 x.1) < mkRat 2 10)).map (fun sp => sp.2)
        let candidate := pyStrip (replRuns isPySpace (List.intercalate [' '] pieces))
        if !candidate.isEmpty && !startsBad candidate then some candidate else none

/-! ## Image extractor (`extract_images`) -/

/-- The configured minimum image width `MIN_W`. -/
def MIN_W : Nat := 500

/-- The configured minimum image height `MIN_H`. -/
def MIN_H : Nat := 500

/-- The configured minimum image area `MIN_AREA`. -/
def MIN_AREA : Nat := 300000

/-- The size filter of `extract_images`:
`w >= MIN_W and h >= MIN_H and area >= MIN_AREA` with `area = w * h`. -/
def imageKeep (w h mw mh ma : Nat) : Bool :=
  decide (mw ≤ w) && decide (mh ≤ h) && decide (ma ≤ w * h)

/-- Embedding of `extract_images`: each page contributes its embedded images
(as width/height pairs, in page order) and only the ones passing the size
filter are kept (and saved).  Pixel rendering and the CMYK→RGB conversion do
not change the dimensions and are not modelled. -/
def extract_images (pages : List (List (Nat × Nat))) : List (Nat × Nat) :=
  pages.flatMap (fun imgs => imgs.filter (fun wh => imageKeep wh.1 wh.2 MIN_W MIN_H MIN_AREA))

/-! ## Document assembler (`main`, lines 197-241) -/

/-- One content block appended to the output document. -/
inductive DocBlock where
  | heading (s : List Char)
  | citation (name : List Char) (matched : Bool)
  | image (w h : Nat)
  | imageMissing
  | captionPar (s : List Char)
  | captionMissing
  | noFigures
  | info (s : List Char)
  | pageBreak
  deriving DecidableEq

/-- The per-file pairing loop of `main` (lines 202-235): compute
`pairs = max(len(images), len(captions))`; if zero, write the citation and the
"no figures" placeholder; otherwise write, for each index, the citation, then
the image or its placeholder, then the caption or its placeholder, appending to
the document left to right as the `for` loop does. -/
def assembleFile (cname : List Char) (matched : Bool)
    (images : List (Nat × Nat)) (captions : List (List Char)) : List DocBlock :=
  let pairs := max images.length captions.length
  if pairs = 0 then [DocBlock.citation cname matched, DocBlock.noFigures]
  else
    (List.range pairs).foldl (fun acc i =>
      acc ++ [DocBlock.citation cname matched] ++
        [if h : i < images.length then
           DocBlock.image (images.get ⟨i, h⟩).1 (images.get ⟨i, h⟩).2
         else DocBlock.imageMissing] ++
        [if h : i < captions.length then DocBlock.captionPar (captions.get ⟨i, h⟩)
         else DocBlock.captionMissing]) []

/-- `extract_full_text`: concatenate the pages' plain text with newlines. -/
def extract_full_text (pages : List (List Char)) : List Char :=
  List.intercalate ['\n'] pages

/-- The fuzzy-match acceptance threshold `MATCH_THRESHOLD = 0.55`. -/
def MATCH_THRESHOLD : ℚ := 55 / 100

/-- One input file of a run: its file name and stem and the extracted raw
material of the parsed document (metadata/first page for the title, page texts
for captions, page image dimensions for images). -/
structure PdfFile where
  name : List Char
  stem : List Char
  metaTitle : Option (List Char)
  firstPage : Option (List (List (List (ℚ × List Char))))
  pageTexts : List (List Char)
  pageImages : List (List (Nat × Nat))
  deriving DecidableEq

/-- The observable outcome of a run: console lines printed, the assembled
output document (`none` when no document is written), the audit CSV rows
(`none` when no CSV is written), and the image files saved on disk. -/
structure RunResult where
  printed : List (List Char)
  docx : Option (List DocBlock)
  csvRows : Option (List (List (List Char)))
  savedImages : List (Nat × Nat)
  deriving DecidableEq

/-- The diagnostic `print("No PDFs found under:", pdf_root)`. -/
def noPdfMsg (root : List Char) : List Char :=
  "No PDFs found under: ".data ++ root

/-- The processing of one input file inside `main`'s loop, producing its
document blocks, its CSV row and its saved images. -/
def processFile (ratio : List Char → List Char → ℚ) (citations : List (List Char))
    (f : PdfFile) : List DocBlock × List (List Char) × List (Nat × Nat) :=
  let detected := (extract_pdf_title ⟨f.metaTitle, f.firstPage⟩).getD []
  let bm := best_fuzzy_match ratio detected citations MATCH_THRESHOLD
  let matched := !bm.1.isEmpty
  let cname := if matched then bm.1 else f.stem
  let captions := extract_captions (extract_full_text f.pageTexts)
  let images := extract_images f.pageImages
  (DocBlock.heading f.name :: assembleFile cname matched images captions,
   [f.name, detected, bm.1],
   images)

/-- Embedding of `main(pdf_root, citations_txt, output_docx, output_csv)` at
the granularity of its observable effects.  `files` is the sorted list of PDFs
found under the root (with their extracted raw material), `citations` the
loaded citation pool, and `writeCsv` whether an output CSV path was given.  If
no input files exist the run stops after the diagnostic, writing nothing. -/
def mainRun (ratio : List Char → List Char → ℚ) (root : List Char)
    (citations : List (List Char)) (files : List PdfFile) (writeCsv : Bool) :
    RunResult :=
  if files.isEmpty then
    { printed := [noPdfMsg root], docx := none, csvRows := none, savedImages := [] }
  else
    let per := files.map (processFile ratio citations)
    { printed := ["Saved DOCX".data] ++ (if writeCsv then ["Saved mapping CSV".data] else [])
      docx := some (per.flatMap (fun r => r.1))
      csvRows := if writeCsv then
          some (["pdf_path".data, "pdf_title_detected".data, "matched_citation".data,
                 "score".data] :: per.map (fun r => r.2.1))
        else none
      savedImages := per.flatMap (fun r => r.2.2) }

/-! ## Proof-support predicates -/

/-- A list is collapsed for `p` when every `p`-character in it is a plain space
and no two adjacent characters both satisfy `p`: the shape of `replRuns p`
output.  Used to prove idempotence of the normalizer. -/
def Collapsed (p : Char → Bool) (l : List Char) : Prop :=
  (∀ c ∈ l, p c = true → c = ' ') ∧
  l.Chain' (fun a b => ¬(p a = true ∧ p b = true))

/-- Size-descending sortedness of a span list: every later element has a size
at most that of every earlier one. -/
def SortedD (l : List (ℚ × List Char)) : Prop :=
  l.Pairwise (fun a b => b.1 ≤ a.1)

/-- The label shape every extracted caption carries at its front: the literal
`Figure`, then at least one whitespace character, then an optional `S`, then at
least one digit. -/
def CaptionShape (cap : List Char) : Prop :=
  ∃ ws sp ds rest, cap = figureChars ++ ws ++ sp ++ ds ++ rest ∧
    ws ≠ [] ∧ (∀ c ∈ ws, isPySpace c = true) ∧
    (sp = [] ∨ sp = ['S']) ∧ ds ≠ [] ∧ (∀ c ∈ ds, isDigitC c = true)

/-! # Theorems -/

theorem toNat_ofNat_small {n : Nat} (h : n < 55296) : (Char.ofNat n).toNat = n := by
  have hv : n.isValidChar := Or.inl h
  rw [Char.ofNat, dif_pos hv]
  rfl

/-- C4: on the two-figure test text, `extract_captions` returns exactly two
captions, each caption block terminated by the start of the next figure-label
line: the first contains the label `Figure 1` and not `Figure 2`, the second
contains `Figure 2` and not `Figure 1`. -/
theorem extract_captions_two_blocks :
    extract_captions "Figure 1. A cell.\nFigure 2. Another cell.".data =
      ["Figure 1. A cell.".data, "Figure 2. Another cell.".data] ∧
    (extract_captions "Figure 1. A cell.\nFigure 2. Another cell.".data).length = 2 ∧
    containsSub "Figure 1. A cell.".data "Figure 1".data = true ∧
    containsSub "Figure 1. A cell.".data "Figure 2".data = false ∧
    containsSub "Figure 2. Another cell.".data "Figure 2".data = true ∧
    containsSub "Figure 2. Another cell.".data "Figure 1".data = false := by
  decide

/-- C5: on the abbreviated-label test text, `extract_captions` rewrites `Fig.`
(with following whitespace) to `Figure `, and returns exactly one caption,
truncated before the `STAR★METHODS` boundary marker and beginning with
`Figure 3`. -/
theorem extract_captions_fig_abbrev :
    extract_captions "Fig. 3: something\nSTAR★METHODS".data =
      ["Figure 3: something".data] ∧
    startsL "Figure 3".data "Figure 3: something".data = true ∧
    containsSub "Figure 3: something".data "STAR".data = false ∧
    containsSub "Figure 3: something".data "Fig.".data = false := by
  decide

/-- C6: the image size filter keeps an image exactly when `w ≥ MIN_W` and
`h ≥ MIN_H` and `w*h ≥ MIN_AREA` (three independent inclusive conditions, all
required); a 400×600 image is excluded when `MIN_W = 500`, and a 500×600 image
is included at the boundary `MIN_W = MIN_H = 500`, `MIN_AREA = 300000`. -/
theorem imageKeep_spec :
    (∀ w h mw mh ma : Nat,
        imageKeep w h mw mh ma = true ↔ (mw ≤ w ∧ mh ≤ h ∧ ma ≤ w * h)) ∧
    (∀ (pages : List (List (Nat × Nat))) (w h : Nat),
        (w, h) ∈ extract_images pages ↔
          ∃ pg ∈ pages, (w, h) ∈ pg ∧ MIN_W ≤ w ∧ MIN_H ≤ h ∧ MIN_AREA ≤ w * h) ∧
    imageKeep 400 600 500 500 300000 = false ∧
    imageKeep 500 600 500 500 300000 = true := by
  refine ⟨?_, ?_, by decide, by decide⟩
  · intro w h mw mh ma
    simp [imageKeep, and_assoc]
  · intro pages w h
    simp [extract_images, imageKeep, List.mem_flatMap, List.mem_filter, and_assoc]

theorem foldl_triple_eq_flatMap (A B C : Nat → DocBlock) :
    ∀ (l : List Nat) (acc : List DocBlock),
      l.foldl (fun a i => a ++ [A i] ++ [B i] ++ [C i]) acc =
        acc ++ l.flatMap (fun i => [A i, B i, C i])
  | [], acc => by simp
  | x :: t, acc => by
    simp only [List.foldl_cons, List.flatMap_cons]
    rw [foldl_triple_eq_flatMap A B C t (acc ++ [A x] ++ [B x] ++ [C x])]
    simp

theorem length_flatMap_three (g : Nat → List DocBlock) (hg : ∀ i, (g i).length = 3) :
    ∀ n, ((List.range n).flatMap g).length = 3 * n := by
  intro n
  induction n with
  | zero => simp
  | succ m ih =>
    rw [List.range_succ, List.flatMap_append]
    simp only [List.length_append, ih, List.flatMap_cons, List.flatMap_nil,
      List.append_nil, hg]
    omega

theorem getElem?_flatMap_three (g : Nat → List DocBlock) (hg : ∀ i, (g i).length = 3) :
    ∀ n i j, i < n → j < 3 →
      ((List.range n).flatMap g)[3 * i + j]? = (g i)[j]? := by
  intro n
  induction n with
  | zero => intro i j hi _; omega
  | succ m ih =>
    intro i j hi hj
    rw [List.range_succ, List.flatMap_append]
    rcases Nat.lt_or_ge i m with h | h
    · rw [List.getElem?_append_left]
      · exact ih i j h hj
      · rw [length_flatMap_three g hg m]; omega
    · have hie : i = m := by omega
      subst hie
      rw [List.getElem?_append_right (by rw [length_flatMap_three g hg i]; omega)]
      rw [length_flatMap_three g hg i]
      have hsub : 3 * i + j - 3 * i = j := by omega
      rw [hsub]
      simp

/-- C1: the assembler emits exactly `max(#images, #captions)`
(citation, image-or-placeholder, caption-or-placeholder) triples: for every
index `i` beyond the end of the shorter list the position is rendered as a
placeholder rather than an error, and when both lists are empty a single
no-figures placeholder block is emitted instead (after the citation line). -/
theorem assembleFile_pairs (cname : List Char) (matched : Bool)
    (images : List (Nat × Nat)) (captions : List (List Char)) :
    (max images.length captions.length = 0 →
      assembleFile cname matched images captions =
        [DocBlock.citation cname matched, DocBlock.noFigures]) ∧
    (0 < max images.length captions.length →
      (assembleFile cname matched images captions).length =
          3 * max images.length captions.length ∧
      ∀ i, i < max images.length captions.length →
        (assembleFile cname matched images captions)[3 * i]? =
            some (DocBlock.citation cname matched) ∧
        (assembleFile cname matched images captions)[3 * i + 1]? =
            some (match images[i]? with
                  | some wh => DocBlock.image wh.1 wh.2
                  | none => DocBlock.imageMissing) ∧
        (assembleFile cname matched images captions)[3 * i + 2]? =
            some (match captions[i]? with
                  | some c => DocBlock.captionPar c
                  | none => DocBlock.captionMissing)) := by
  constructor
  · intro h
    simp [assembleFile, h]
  · intro hpos
    have hne : ¬ (max images.length captions.length = 0) := by omega
    have hrw : assembleFile cname matched images captions =
        (List.range (max images.length captions.length)).flatMap (fun i =>
          [DocBlock.citation cname matched,
           if h : i < images.length then
             DocBlock.image (images.get ⟨i, h⟩).1 (images.get ⟨i, h⟩).2
           else DocBlock.imageMissing,
           if h : i < captions.length then DocBlock.captionPar (captions.get ⟨i, h⟩)
           else DocBlock.captionMissing]) := by
      rw [assembleFile, if_neg hne]
      rw [foldl_triple_eq_flatMap]
      simp
    have hg : ∀ i, ([DocBlock.citation cname matched,
        if h : i < images.length then
          DocBlock.image (images.get ⟨i, h⟩).1 (images.get ⟨i, h⟩).2
        else DocBlock.imageMissing,
        if h : i < captions.length then DocBlock.captionPar (captions.get ⟨i, h⟩)
        else DocBlock.captionMissing] : List DocBlock).length = 3 := by
      intro i; rfl
    constructor
    · rw [hrw]
      exact length_flatMap_three _ hg _
    · intro i hi
      refine ⟨?_, ?_, ?_⟩
      · have := getElem?_flatMap_three _ hg _ i 0 hi (by omega)
        rw [hrw]
        simpa using this
      · have := getElem?_flatMap_three _ hg _ i 1 hi (by omega)
        rw [hrw, this]
        by_cases h : i < images.length
        · have hsome : images[i]? = some images[i] := List.getElem?_eq_getElem h
          rw [dif_pos h, hsome]
          simp
        · have hnone : images[i]? = none := List.getElem?_eq_none (by omega)
          rw [dif_neg h, hnone]
          simp
      · have := getElem?_flatMap_three _ hg _ i 2 hi (by omega)
        rw [hrw, this]
        by_cases h : i < captions.length
        · have hsome : captions[i]? = some captions[i] := List.getElem?_eq_getElem h
          rw [dif_pos h, hsome]
          simp
        · have hnone : captions[i]? = none := List.getElem?_eq_none (by omega)
          rw [dif_neg h, hnone]
          simp

/-- Witness for C1 at the spec's calibration input: a file with 3 images and 1
caption yields exactly 3 triples, with captions 2 and 3 rendered as
placeholders. -/
theorem assembleFile_pairs_w :
    (assembleFile "c".data true [(600, 600), (700, 700), (800, 800)]
        ["Figure 1. x".data]).length = 9 ∧
    (assembleFile "c".data true [(600, 600), (700, 700), (800, 800)]
        ["Figure 1. x".data])[2]? = some (DocBlock.captionPar "Figure 1. x".data) ∧
    (assembleFile "c".data true [(600, 600), (700, 700), (800, 800)]
        ["Figure 1. x".data])[5]? = some DocBlock.captionMissing ∧
    (assembleFile "c".data true [(600, 600), (700, 700), (800, 800)]
        ["Figure 1. x".data])[8]? = some DocBlock.captionMissing := by
  have h := (assembleFile_pairs "c".data true [(600, 600), (700, 700), (800, 800)]
    ["Figure 1. x".data]).2 (by decide)
  refine ⟨by simpa using h.1, ?_, ?_, ?_⟩
  · have h0 := (h.2 0 (by decide)).2.2
    simpa using h0
  · have h1 := (h.2 1 (by decide)).2.2
    simpa using h1
  · have h2 := (h.2 2 (by decide)).2.2
    simpa using h2

/-- C8: a run whose root contains no input files halts after printing the
diagnostic naming the searched root and writes neither the output document nor
the audit CSV nor any image file; with at least one input file the output
document is produced (the empty input is the only fatal error class in the
model). -/
theorem mainRun_no_inputs (ratio : List Char → List Char → ℚ) (root : List Char)
    (citations : List (List Char)) (files : List PdfFile) (writeCsv : Bool) :
    (files = [] →
      mainRun ratio root citations files writeCsv =
        { printed := ["No PDFs found under: ".data ++ root], docx := none,
          csvRows := none, savedImages := [] }) ∧
    (files ≠ [] →
      (mainRun ratio root citations files writeCsv).docx.isSome = true) := by
  constructor
  · intro h
    subst h
    rfl
  · intro h
    rw [mainRun, if_neg (by simpa [List.isEmpty_iff] using h)]
    simp

/-- Witness for C8: the empty run at root `r` prints exactly the diagnostic and
writes nothing, while a one-file run writes the document. -/
theorem mainRun_no_inputs_w :
    mainRun ratioEq "r".data [] [] true =
      { printed := ["No PDFs found under: r".data], docx := none, csvRows := none,
        savedImages := [] } ∧
    (mainRun ratioEq "r".data []
        [⟨"a.pdf".data, "a".data, none, none, [], []⟩] true).docx.isSome = true := by
  constructor
  · have h := (mainRun_no_inputs ratioEq "r".data [] [] true).1 rfl
    rw [h]
    decide
  · exact (mainRun_no_inputs ratioEq "r".data []
      [⟨"a.pdf".data, "a".data, none, none, [], []⟩] true).2 (by decide)

theorem fuzzyFold_spec (f : List Char → ℚ) :
    ∀ (pool : List (List Char)) (acc : List Char × ℚ),
      acc.2 ≤ (pool.foldl (fun a c => if a.2 < f c then (c, f c) else a) acc).2 ∧
      (∀ c ∈ pool, f c ≤ (pool.foldl (fun a c => if a.2 < f c then (c, f c) else a) acc).2) ∧
      ((pool.foldl (fun a c => if a.2 < f c then (c, f c) else a) acc) = acc ∨
        ∃ i, ∃ h : i < pool.length,
          (pool.foldl (fun a c => if a.2 < f c then (c, f c) else a) acc) =
            (pool.get ⟨i, h⟩, f (pool.get ⟨i, h⟩)) ∧
          acc.2 < f (pool.get ⟨i, h⟩) ∧
          ∀ j, ∀ hj : j < i, f (pool.get ⟨j, Nat.lt_trans hj h⟩) < f (pool.get ⟨i, h⟩))
  | [], acc => by
    refine ⟨le_refl _, by simp, Or.inl rfl⟩
  | c :: t, acc => by
    rw [List.foldl_cons]
    by_cases hc : acc.2 < f c
    · rw [if_pos hc]
      obtain ⟨h1, h2, h3⟩ := fuzzyFold_spec f t (c, f c)
      refine ⟨le_trans (le_of_lt hc) h1, ?_, ?_⟩
      · intro d hd
        rcases List.mem_cons.mp hd with h | h
        · subst h; exact h1
        · exact h2 d h
      · rcases h3 with h3 | ⟨i, hi, hr, hlt, hpred⟩
        · refine Or.inr ⟨0, by simp, by simpa using h3, by simpa using hc, ?_⟩
          intro j hj; omega
        · refine Or.inr ⟨i + 1, by simpa using Nat.succ_lt_succ hi, by simpa using hr, ?_, ?_⟩
          · exact lt_trans hc hlt
          · intro j hj
            match j with
            | 0 => simpa using hlt
            | j' + 1 =>
              have := hpred j' (by omega)
              simpa using this
    · rw [if_neg hc]
      obtain ⟨h1, h2, h3⟩ := fuzzyFold_spec f t acc
      refine ⟨h1, ?_, ?_⟩
      · intro d hd
        rcases List.mem_cons.mp hd with h | h
        · subst h; exact le_trans (le_of_not_lt hc) h1
        · exact h2 d h
      · rcases h3 with h3 | ⟨i, hi, hr, hlt, hpred⟩
        · exact Or.inl h3
        · refine Or.inr ⟨i + 1, by simpa using Nat.succ_lt_succ hi, by simpa using hr, hlt, ?_⟩
          intro j hj
          match j with
          | 0 => simpa using lt_of_le_of_lt (le_of_not_lt hc) hlt
          | j' + 1 =>
            have := hpred j' (by omega)
            simpa using this

theorem best_fuzzy_match_eq (ratio : List Char → List Char → ℚ) (target : List Char)
    (pool : List (List Char)) (threshold : ℚ) (h : target ≠ []) :
    best_fuzzy_match ratio target pool threshold =
      (if threshold ≤ (pool.foldl (fun a c =>
            if a.2 < ratio (normalize_for_match target) (normalize_for_match c)
            then (c, ratio (normalize_for_match target) (normalize_for_match c))
            else a) ([], 0)).2
       then pool.foldl (fun a c =>
            if a.2 < ratio (normalize_for_match target) (normalize_for_match c)
            then (c, ratio (normalize_for_match target) (normalize_for_match c))
            else a) ([], 0)
       else ([], 0)) := by
  rw [best_fuzzy_match, if_neg h]

/-- C2 (amended): `best_fuzzy_match` never returns a non-empty candidate with a
score below the threshold.  If the target is empty, or the pool is empty, or
every candidate scores below the threshold, or no candidate scores strictly
above zero, the result is the empty string with score `0.0` (no error is
raised); otherwise the result is the first pool element attaining the strictly
highest score, with that score (ties broken by first occurrence, since the
running best is replaced only on a strict improvement). -/
theorem best_fuzzy_match_amended (ratio : List Char → List Char → ℚ)
    (target : List Char) (pool : List (List Char)) (threshold : ℚ) :
    (target = [] → best_fuzzy_match ratio target pool threshold = ([], 0)) ∧
    (pool = [] → best_fuzzy_match ratio target pool threshold = ([], 0)) ∧
    ((∀ c ∈ pool, ratio (normalize_for_match target) (normalize_for_match c) < threshold) →
      best_fuzzy_match ratio target pool threshold = ([], 0)) ∧
    ((∀ c ∈ pool, ratio (normalize_for_match target) (normalize_for_match c) ≤ 0) →
      best_fuzzy_match ratio target pool threshold = ([], 0)) ∧
    (target ≠ [] →
      ∀ c₀ ∈ pool,
        threshold ≤ ratio (normalize_for_match target) (normalize_for_match c₀) →
        0 < ratio (normalize_for_match target) (normalize_for_match c₀) →
        ∃ i, ∃ h : i < pool.length,
          best_fuzzy_match ratio target pool threshold =
            (pool.get ⟨i, h⟩,
             ratio (normalize_for_match target) (normalize_for_match (pool.get ⟨i, h⟩))) ∧
          (∀ j, ∀ hj : j < i,
            ratio (normalize_for_match target)
                (normalize_for_match (pool.get ⟨j, Nat.lt_trans hj h⟩)) <
              ratio (normalize_for_match target) (normalize_for_match (pool.get ⟨i, h⟩))) ∧
          (∀ j, ∀ hj : j < pool.length,
            ratio (normalize_for_match target) (normalize_for_match (pool.get ⟨j, hj⟩)) ≤
              ratio (normalize_for_match target) (normalize_for_match (pool.get ⟨i, h⟩)))) := by
  refine ⟨?_, ?_, ?_, ?_, ?_⟩
  · intro h
    rw [best_fuzzy_match, if_pos h]
  · intro h
    subst h
    by_cases ht : target = []
    · rw [best_fuzzy_match, if_pos ht]
    · rw [best_fuzzy_match_eq ratio target [] threshold ht]
      simp only [List.foldl_nil]
      split <;> rfl
  · intro hall
    by_cases ht : target = []
    · rw [best_fuzzy_match, if_pos ht]
    · rw [best_fuzzy_match_eq ratio target pool threshold ht]
      have hs := fuzzyFold_spec
        (fun c => ratio (normalize_for_match target) (normalize_for_match c)) pool ([], 0)
      obtain ⟨h1, h2, h3⟩ := hs
      rcases h3 with h3 | ⟨i, hi, hr, hlt, hpred⟩
      · rw [h3]
        split <;> rfl
      · rw [hr]
        have hbelow := hall (pool.get ⟨i, hi⟩) (pool.get_mem i hi)
        rw [if_neg (by simpa using not_le.mpr hbelow)]
  · intro hall
    by_cases ht : target = []
    · rw [best_fuzzy_match, if_pos ht]
    · rw [best_fuzzy_match_eq ratio target pool threshold ht]
      have hs := fuzzyFold_spec
        (fun c => ratio (normalize_for_match target) (normalize_for_match c)) pool ([], 0)
      obtain ⟨h1, h2, h3⟩ := hs
      rcases h3 with h3 | ⟨i, hi, hr, hlt, hpred⟩
      · rw [h3]
        split <;> rfl
      · have := hall (pool.get ⟨i, hi⟩) (pool.get_mem i hi)
        simp only at hlt
        exact absurd (lt_of_lt_of_le hlt this) (by norm_num)
  · intro ht c₀ hc₀ hth hpos
    rw [best_fuzzy_match_eq ratio target pool threshold ht]
    have hs := fuzzyFold_spec
      (fun c => ratio (normalize_for_match target) (normalize_for_match c)) pool ([], 0)
    obtain ⟨h1, h2, h3⟩ := hs
    rcases h3 with h3 | ⟨i, hi, hr, hlt, hpred⟩
    · have hle := h2 c₀ hc₀
      rw [h3] at hle
      simp only at hle
      exact absurd (lt_of_lt_of_le hpos hle) (by norm_num)
    · refine ⟨i, hi, ?_, ?_, ?_⟩
      · have hcond : threshold ≤ (pool.foldl (fun a c =>
            if a.2 < ratio (normalize_for_match target) (normalize_for_match c)
            then (c, ratio (normalize_for_match target) (normalize_for_match c))
            else a) (([] : List Char), (0 : ℚ))).2 := by
          refine le_trans hth ?_
          exact h2 c₀ hc₀
        rw [if_pos hcond, hr]
      · intro j hj
        exact hpred j hj
      · intro j hj
        have := h2 (pool.get ⟨j, hj⟩) (pool.get_mem j hj)
        rw [hr] at this
        simpa using this

/-- C2 counterexample to the claim as stated: with target `"a"`, pool `["b"]`
and threshold `0.0`, the target and pool are non-empty and the highest
similarity (`0.0`, as `difflib` scores the fully dissimilar normalized strings
`"a"` and `"b"`, here modelled by `ratioEq`) is *not* below the threshold, yet
the function returns `("", 0.0)` instead of the first pool element attaining
the highest score. -/
theorem best_fuzzy_match_cex :
    "a".data ≠ [] ∧ (["b".data] : List (List Char)) ≠ [] ∧
    ratioEq (normalize_for_match "a".data) (normalize_for_match "b".data) = 0 ∧
    ¬(ratioEq (normalize_for_match "a".data) (normalize_for_match "b".data) < 0) ∧
    best_fuzzy_match ratioEq "a".data ["b".data] 0 = ([], 0) ∧
    (best_fuzzy_match ratioEq "a".data ["b".data] 0).1 ≠ "b".data := by
  refine ⟨by decide, by decide, by decide, by decide, by decide, by decide⟩

/-- Witness for the amended C2: at threshold `1` with pool `["x", "ab"]` and
target `"ab"` (self-similarity `1`, modelled by `ratioEq`), the returned pair
is a pool element with its score; and with every candidate below the
threshold the result is `("", 0)`. -/
theorem best_fuzzy_match_amended_w :
    (∃ i, ∃ h : i < (["x".data, "ab".data] : List (List Char)).length,
      best_fuzzy_match ratioEq "ab".data ["x".data, "ab".data] 1 =
        (["x".data, "ab".data].get ⟨i, h⟩,
         ratioEq (normalize_for_match "ab".data)
           (normalize_for_match (["x".data, "ab".data].get ⟨i, h⟩)))) ∧
    best_fuzzy_match ratioEq "a".data ["b".data] 1 = ([], 0) := by
  constructor
  · obtain ⟨i, h, hr, -, -⟩ :=
      (best_fuzzy_match_amended ratioEq "ab".data ["x".data, "ab".data] 1).2.2.2.2
        (by decide) "ab".data (by decide) (by decide) (by decide)
    exact ⟨i, h, hr⟩
  · exact (best_fuzzy_match_amended ratioEq "a".data ["b".data] 1).2.2.1 (by decide)

/-- C9: for every non-empty target and every threshold at most `1`, if the pool
contains a candidate whose normalized form equals the normalized target, the
returned score is `1.0`.  The two facts about the external `difflib` ratio used
here are that identical sequences score `1` and that `1` bounds every score. -/
theorem best_fuzzy_match_self (ratio : List Char → List Char → ℚ)
    (target : List Char) (pool : List (List Char)) (threshold : ℚ)
    (hrefl : ∀ a, ratio a a = 1) (hub : ∀ a b, ratio a b ≤ 1)
    (ht : target ≠ []) (hth : threshold ≤ 1)
    (c₀ : List Char) (hc₀ : c₀ ∈ pool)
    (hnorm : normalize_for_match c₀ = normalize_for_match target) :
    (best_fuzzy_match ratio target pool threshold).2 = 1 := by
  rw [best_fuzzy_match_eq ratio target pool threshold ht]
  obtain ⟨h1, h2, h3⟩ := fuzzyFold_spec
    (fun c => ratio (normalize_for_match target) (normalize_for_match c)) pool ([], 0)
  set R := pool.foldl (fun a c =>
      if a.2 < ratio (normalize_for_match target) (normalize_for_match c)
      then (c, ratio (normalize_for_match target) (normalize_for_match c)) else a)
    (([] : List Char), (0 : ℚ)) with hRdef
  have hge : (1 : ℚ) ≤ R.2 := by
    have h := h2 c₀ hc₀
    simp only [hnorm, hrefl] at h
    exact h
  have hub2 : R.2 ≤ 1 := by
    rcases h3 with h3 | ⟨i, hi, hr, -, -⟩
    · rw [h3]; norm_num
    · rw [hr]; exact hub _ _
  have hR2 : R.2 = 1 := le_antisymm hub2 hge
  rw [if_pos (by rw [hR2]; exact hth)]
  exact hR2

/-- Witness for C9: the uppercase target `"A"` normalizes to `"a"`, which the
pool contains, so the returned score is `1`. -/
theorem best_fuzzy_match_self_w :
    (best_fuzzy_match ratioEq "A".data ["x".data, "a".data] 1).2 = 1 := by
  refine best_fuzzy_match_self ratioEq "A".data ["x".data, "a".data] 1 ?_ ?_
    (by decide) le_rfl "a".data (by decide) (by decide)
  · intro a
    simp [ratioEq]
  · intro a b
    unfold ratioEq
    split
    · exact le_rfl
    · norm_num

theorem mem_replRuns (p : Char → Bool) :
    ∀ (l : List Char) (c : Char), c ∈ replRuns p l → c = ' ' ∨ (c ∈ l ∧ p c = false)
  | [], c, h => by simp [replRuns] at h
  | [a], c, h => by
    rw [replRuns] at h
    by_cases hp : p a
    · rw [if_pos hp] at h
      simp at h
      exact Or.inl h
    · rw [if_neg hp] at h
      simp at h
      exact Or.inr ⟨by simp [h], by simp [h]; simpa using hp⟩
  | a :: d :: cs, c, h => by
    rw [replRuns] at h
    by_cases hp : p a
    · rw [if_pos hp] at h
      by_cases hd : p d
      · rw [if_pos hd] at h
        rcases mem_replRuns p (d :: cs) c h with h' | ⟨hm, hpc⟩
        · exact Or.inl h'
        · exact Or.inr ⟨List.mem_cons_of_mem _ hm, hpc⟩
      · rw [if_neg hd] at h
        rcases List.mem_cons.mp h with h' | h'
        · exact Or.inl h'
        · rcases mem_replRuns p (d :: cs) c h' with h'' | ⟨hm, hpc⟩
          · exact Or.inl h''
          · exact Or.inr ⟨List.mem_cons_of_mem _ hm, hpc⟩
    · rw [if_neg hp] at h
      rcases List.mem_cons.mp h with h' | h'
      · subst h'
        exact Or.inr ⟨List.mem_cons_self _ _, by simpa using hp⟩
      · rcases mem_replRuns p (d :: cs) c h' with h'' | ⟨hm, hpc⟩
        · exact Or.inl h''
        · exact Or.inr ⟨List.mem_cons_of_mem _ hm, hpc⟩

theorem replRuns_eq_self (p : Char → Bool) :
    ∀ (l : List Char), (∀ c ∈ l, p c = false) → replRuns p l = l
  | [], _ => rfl
  | [a], h => by
    rw [replRuns, if_neg (by simp [h a (List.mem_singleton_self a)])]
  | a :: d :: cs, h => by
    rw [replRuns, if_neg (by simp [h a (List.mem_cons_self a _)])]
    rw [replRuns_eq_self p (d :: cs) (fun c hc => h c (List.mem_cons_of_mem _ hc))]

theorem replRuns_head_neg (p : Char → Bool) (d : Char) (cs : List Char)
    (hd : p d = false) : (replRuns p (d :: cs)).head? = some d := by
  cases cs with
  | nil => rw [replRuns, if_neg (by simp [hd])]; rfl
  | cons e t => rw [replRuns, if_neg (by simp [hd])]; rfl

theorem collapsed_id (p : Char → Bool) :
    ∀ (l : List Char), Collapsed p l → replRuns p l = l
  | [], _ => rfl
  | [a], h => by
    by_cases hp : p a
    · have ha : a = ' ' := h.1 a (List.mem_singleton_self a) hp
      rw [replRuns, if_pos hp, ha]
    · rw [replRuns, if_neg hp]
  | a :: d :: cs, h => by
    have htail : Collapsed p (d :: cs) :=
      ⟨fun c hc => h.1 c (List.mem_cons_of_mem _ hc), (List.chain'_cons.mp h.2).2⟩
    by_cases hp : p a
    · have ha : a = ' ' := h.1 a (List.mem_cons_self _ _) hp
      have hd : p d = false := by
        have := (List.chain'_cons.mp h.2).1
        by_cases hdd : p d
        · exact absurd ⟨hp, hdd⟩ this
        · simpa using hdd
      rw [replRuns, if_pos hp, if_neg (by simp [hd]), collapsed_id p (d :: cs) htail, ha]
    · rw [replRuns, if_neg hp, collapsed_id p (d :: cs) htail]

theorem collapsed_replRuns (p : Char → Bool) (hsp : p ' ' = true) :
    ∀ (l : List Char), Collapsed p (replRuns p l)
  | [] => ⟨by simp [replRuns], by simp [replRuns]⟩
  | [a] => by
    by_cases hp : p a
    · rw [replRuns, if_pos hp]
      exact ⟨fun c hc _ => by simpa using hc, List.chain'_singleton _⟩
    · rw [replRuns, if_neg hp]
      refine ⟨fun c hc hpc => ?_, List.chain'_singleton _⟩
      simp at hc
      subst hc
      exact absurd hpc (by simpa using hp)
  | a :: d :: cs => by
    have ih := collapsed_replRuns p hsp (d :: cs)
    by_cases hp : p a
    · by_cases hd : p d
      · rw [replRuns, if_pos hp, if_pos hd]
        exact ih
      · rw [replRuns, if_pos hp, if_neg hd]
        refine ⟨fun c hc hpc => ?_, ?_⟩
        · rcases List.mem_cons.mp hc with h' | h'
          · exact h'
          · exact ih.1 c h' hpc
        · rw [List.chain'_cons']
          refine ⟨fun y hy => ?_, ih.2⟩
          rw [replRuns_head_neg p d cs (by simpa using hd)] at hy
          simp at hy
          subst hy
          rintro ⟨-, hpd⟩
          exact absurd hpd (by simpa using hd)
    · rw [replRuns, if_neg hp]
      refine ⟨fun c hc hpc => ?_, ?_⟩
      · rcases List.mem_cons.mp hc with h' | h'
        · subst h'
          exact absurd hpc (by simpa using hp)
        · exact ih.1 c h' hpc
      · rw [List.chain'_cons']
        refine ⟨fun y hy => ?_, ih.2⟩
        rintro ⟨hpa, -⟩
        exact absurd hpa (by simpa using hp)

theorem collapsed_dropWhile (p q : Char → Bool) (l : List Char)
    (h : Collapsed p l) : Collapsed p (l.dropWhile q) :=
  ⟨fun c hc => h.1 c ((List.dropWhile_sublist q).subset hc),
   h.2.suffix (List.dropWhile_suffix q)⟩

theorem collapsed_reverse (p : Char → Bool) (l : List Char)
    (h : Collapsed p l) : Collapsed p l.reverse := by
  refine ⟨fun c hc => h.1 c (List.mem_reverse.mp hc), ?_⟩
  rw [List.chain'_reverse]
  exact h.2.imp (fun a b hab => fun hba => hab ⟨hba.2, hba.1⟩)

theorem collapsed_pyStrip (p : Char → Bool) (l : List Char)
    (h : Collapsed p l) : Collapsed p (pyStrip l) := by
  unfold pyStrip
  exact collapsed_reverse p _ (collapsed_dropWhile p _ _
    (collapsed_reverse p _ (collapsed_dropWhile p _ _ h)))

theorem head?_dropWhile_false (q : Char → Bool) :
    ∀ (l : List Char) (c : Char), (l.dropWhile q).head? = some c → q c = false
  | [], c, h => by simp at h
  | a :: t, c, h => by
    rw [List.dropWhile_cons] at h
    by_cases hq : q a
    · rw [if_pos hq] at h
      exact head?_dropWhile_false q t c h
    · rw [if_neg hq] at h
      simp at h
      rw [← h]
      simpa using hq

theorem dropWhile_eq_self_of_head (q : Char → Bool) (l : List Char)
    (h : ∀ c, l.head? = some c → q c = false) : l.dropWhile q = l := by
  cases l with
  | nil => rfl
  | cons a t =>
    rw [List.dropWhile_cons, if_neg (by simp [h a rfl])]

theorem mem_pyStrip (l : List Char) (c : Char) (h : c ∈ pyStrip l) : c ∈ l := by
  unfold pyStrip at h
  rw [List.mem_reverse] at h
  have h2 := (List.dropWhile_sublist _).subset h
  rw [List.mem_reverse] at h2
  exact (List.dropWhile_sublist _).subset h2

theorem getLast?_dropWhile (q : Char → Bool) :
    ∀ (l : List Char), l.dropWhile q = [] ∨ (l.dropWhile q).getLast? = l.getLast?
  | [] => Or.inl rfl
  | a :: t => by
    rw [List.dropWhile_cons]
    by_cases hq : q a
    · rw [if_pos hq]
      rcases getLast?_dropWhile q t with h | h
      · exact Or.inl h
      · cases t with
        | nil => exact Or.inl (by simp at h; simp [h])
        | cons b bs =>
          refine Or.inr ?_
          rw [h, List.getLast?_cons_cons]
    · rw [if_neg hq]
      exact Or.inr rfl

theorem pyStrip_head (l : List Char) (c : Char)
    (h : (pyStrip l).head? = some c) : isPySpace c = false := by
  unfold pyStrip at h
  rw [List.head?_reverse] at h
  rcases getLast?_dropWhile isPySpace ((l.dropWhile isPySpace).reverse) with he | he
  · rw [he] at h
    simp at h
  · rw [he, List.getLast?_reverse] at h
    exact head?_dropWhile_false isPySpace l c h

theorem pyStrip_getLast (l : List Char) (c : Char)
    (h : (pyStrip l).getLast? = some c) : isPySpace c = false := by
  unfold pyStrip at h
  rw [List.getLast?_reverse] at h
  exact head?_dropWhile_false isPySpace _ c h

theorem pyStrip_eq_self (l : List Char)
    (h1 : ∀ c, l.head? = some c → isPySpace c = false)
    (h2 : ∀ c, l.getLast? = some c → isPySpace c = false) : pyStrip l = l := by
  unfold pyStrip
  rw [dropWhile_eq_self_of_head _ _ h1]
  rw [dropWhile_eq_self_of_head _ _ (fun c hc => h2 c (by rwa [List.head?_reverse] at hc))]
  exact List.reverse_reverse l

theorem pyStrip_idem (l : List Char) : pyStrip (pyStrip l) = pyStrip l :=
  pyStrip_eq_self _ (pyStrip_head l) (pyStrip_getLast l)

theorem lowerChar_idem (c : Char) : lowerChar (lowerChar c) = lowerChar c := by
  by_cases h : 65 ≤ c.toNat ∧ c.toNat ≤ 90
  · have hl : lowerChar c = Char.ofNat (c.toNat + 32) := by rw [lowerChar, if_pos h]
    have ht : (Char.ofNat (c.toNat + 32)).toNat = c.toNat + 32 :=
      toNat_ofNat_small (by omega)
    rw [hl, lowerChar, if_neg (by rw [ht]; omega)]
  · have hl : lowerChar c = c := by rw [lowerChar, if_neg h]
    rw [hl, hl]

theorem norm_chars (s : List Char) :
    ∀ c ∈ normalize_for_match s, lowerChar c = c ∧ isPunct c = false := by
  intro c hc
  have h1 := mem_pyStrip _ _ hc
  rcases mem_replRuns _ _ _ h1 with h | ⟨h2, -⟩
  · subst h
    exact ⟨by decide, by decide⟩
  · rcases mem_replRuns _ _ _ h2 with h | ⟨h3, hp⟩
    · subst h
      exact ⟨by decide, by decide⟩
    · refine ⟨?_, hp⟩
      obtain ⟨d, -, rfl⟩ := List.mem_map.mp h3
      exact lowerChar_idem d

/-- C3: the text normalizer is a total deterministic function (it is a Lean
function on character lists) and is idempotent: normalizing twice equals
normalizing once. -/
theorem normalize_for_match_idem (s : List Char) :
    normalize_for_match (normalize_for_match s) = normalize_for_match s := by
  have hchars := norm_chars s
  have hlow : (normalize_for_match s).map lowerChar = normalize_for_match s := by
    rw [List.map_congr_left (fun c hc => (hchars c hc).1)]
    exact List.map_id _
  have hpunct : replRuns isPunct (normalize_for_match s) = normalize_for_match s :=
    replRuns_eq_self _ _ (fun c hc => (hchars c hc).2)
  have hcoll : Collapsed isPySpace (normalize_for_match s) := by
    rw [normalize_for_match]
    exact collapsed_pyStrip _ _ (collapsed_replRuns _ (by decide) _)
  have hws : replRuns isPySpace (normalize_for_match s) = normalize_for_match s :=
    collapsed_id _ _ hcoll
  have hstrip : pyStrip (normalize_for_match s) = normalize_for_match s := by
    conv_lhs => rw [normalize_for_match]
    rw [pyStrip_idem, ← normalize_for_match]
  calc normalize_for_match (normalize_for_match s)
      = pyStrip (replRuns isPySpace (replRuns isPunct
          ((normalize_for_match s).map lowerChar))) := rfl
    _ = pyStrip (replRuns isPySpace (replRuns isPunct (normalize_for_match s))) := by
          rw [hlow]
    _ = pyStrip (replRuns isPySpace (normalize_for_match s)) := by rw [hpunct]
    _ = pyStrip (normalize_for_match s) := by rw [hws]
    _ = normalize_for_match s := hstrip

theorem ratSub_eq (a b : ℚ) : ratSub a b = a - b := by
  rw [ratSub, Rat.mkRat_eq_div]
  have ha : ((a.den : ℚ)) ≠ 0 := by exact_mod_cast a.den_pos.ne'
  have hb : ((b.den : ℚ)) ≠ 0 := by exact_mod_cast b.den_pos.ne'
  conv_rhs => rw [← Rat.num_div_den a, ← Rat.num_div_den b, div_sub_div _ _ ha hb]
  push_cast
  congr 1
  ring

theorem rat_num_neg (q : ℚ) : q.num < 0 ↔ q < 0 := by
  rw [← not_le, ← not_le, Rat.num_nonneg]

theorem ratAbs_eq (q : ℚ) : ratAbs q = |q| := by
  rw [ratAbs]
  by_cases h : q.num < 0
  · rw [if_pos h, abs_of_neg ((rat_num_neg q).mp h), Rat.mkRat_eq_div]
    push_cast
    rw [neg_div, Rat.num_div_den]
  · rw [if_neg h, abs_of_nonneg]
    rw [← Rat.num_nonneg]
    omega

theorem mem_insOrd (x a : ℚ × List Char) :
    ∀ l : List (ℚ × List Char), a ∈ insOrd x l ↔ a = x ∨ a ∈ l
  | [] => by simp [insOrd]
  | y :: ys => by
    rw [insOrd]
    by_cases hle : y.1 ≤ x.1
    · rw [if_pos hle]
      simp [List.mem_cons]
    · rw [if_neg hle]
      simp only [List.mem_cons, mem_insOrd x a ys]
      tauto

theorem insOrd_sortedD (x : ℚ × List Char) :
    ∀ l : List (ℚ × List Char), SortedD l → SortedD (insOrd x l)
  | [], _ => by simp [insOrd, SortedD]
  | y :: ys, h => by
    rw [SortedD, List.pairwise_cons] at h
    rw [insOrd]
    by_cases hle : y.1 ≤ x.1
    · rw [if_pos hle]
      rw [SortedD, List.pairwise_cons]
      refine ⟨?_, ?_⟩
      · intro b hb
        rcases List.mem_cons.mp hb with rfl | hb'
        · exact hle
        · exact le_trans (h.1 b hb') hle
      · rw [List.pairwise_cons]
        exact h
    · rw [if_neg hle]
      rw [SortedD, List.pairwise_cons]
      refine ⟨?_, insOrd_sortedD x ys h.2⟩
      intro b hb
      rcases (mem_insOrd x b ys).mp hb with rfl | hb'
      · exact le_of_lt (lt_of_not_le hle)
      · exact h.1 b hb'

theorem sortDesc_sortedD : ∀ l : List (ℚ × List Char), SortedD (sortDesc l)
  | [] => by simp [sortDesc, SortedD]
  | c :: t => by
    rw [sortDesc, List.foldr_cons]
    exact insOrd_sortedD c _ (sortDesc_sortedD t)

theorem mem_sortDesc (a : ℚ × List Char) :
    ∀ l : List (ℚ × List Char), a ∈ sortDesc l ↔ a ∈ l
  | [] => by simp [sortDesc]
  | c :: t => by
    rw [sortDesc, List.foldr_cons]
    rw [mem_insOrd]
    simp only [List.mem_cons]
    rw [show (List.foldr insOrd [] t) = sortDesc t from rfl, mem_sortDesc a t]

theorem length_insOrd (x : ℚ × List Char) :
    ∀ l : List (ℚ × List Char), (insOrd x l).length = l.length + 1
  | [] => rfl
  | y :: ys => by
    rw [insOrd]
    by_cases hle : y.1 ≤ x.1
    · rw [if_pos hle]
      rfl
    · rw [if_neg hle]
      simp [length_insOrd x ys]

theorem length_sortDesc : ∀ l : List (ℚ × List Char), (sortDesc l).length = l.length
  | [] => rfl
  | c :: t => by
    rw [sortDesc, List.foldr_cons]
    rw [length_insOrd, show (List.foldr insOrd [] t) = sortDesc t from rfl,
      length_sortDesc t]
    rfl

theorem insOrd_front (x : ℚ × List Char) :
    ∀ l : List (ℚ × List Char), (∀ z ∈ l, z.1 ≤ x.1) → insOrd x l = x :: l
  | [], _ => rfl
  | y :: ys, h => by
    rw [insOrd, if_pos (h y (List.mem_cons_self y ys))]

theorem filter_insOrd (p : ℚ × List Char → Bool) (x : ℚ × List Char) :
    ∀ l : List (ℚ × List Char), SortedD l →
      (insOrd x l).filter p =
        if p x then insOrd x (l.filter p) else l.filter p
  | [], _ => by
    rw [insOrd]
    by_cases hpx : p x
    · rw [if_pos hpx, List.filter_cons, if_pos hpx]
      rfl
    · rw [if_neg hpx, List.filter_cons, if_neg hpx]
  | y :: ys, h => by
    rw [SortedD, List.pairwise_cons] at h
    rw [insOrd]
    by_cases hle : y.1 ≤ x.1
    · rw [if_pos hle, List.filter_cons]
      by_cases hpx : p x
      · rw [if_pos hpx, if_pos hpx]
        have hfront : insOrd x ((y :: ys).filter p) = x :: (y :: ys).filter p := by
          refine insOrd_front x _ ?_
          intro z hz
          have hz' := List.mem_of_mem_filter hz
          rcases List.mem_cons.mp hz' with rfl | hz''
          · exact hle
          · exact le_trans (h.1 z hz'') hle
        rw [hfront]
      · rw [if_neg hpx, if_neg hpx]
    · rw [if_neg hle, List.filter_cons]
      have ih := filter_insOrd p x ys h.2
      by_cases hpy : p y
      · rw [if_pos hpy, ih]
        by_cases hpx : p x
        · rw [if_pos hpx, if_pos hpx, List.filter_cons, if_pos hpy, insOrd, if_neg hle]
        · rw [if_neg hpx, if_neg hpx, List.filter_cons, if_pos hpy]
      · rw [if_neg hpy, ih, List.filter_cons, if_neg hpy]

theorem filter_sortDesc (p : ℚ × List Char → Bool) :
    ∀ l : List (ℚ × List Char), (sortDesc l).filter p = sortDesc (l.filter p)
  | [] => rfl
  | c :: t => by
    rw [sortDesc, List.foldr_cons,
      filter_insOrd p c _ (show SortedD (List.foldr insOrd [] t) from sortDesc_sortedD t),
      show (List.foldr insOrd [] t) = sortDesc t from rfl, filter_sortDesc p t,
      List.filter_cons]
    by_cases hpc : p c
    · rw [if_pos hpc, if_pos hpc]
      rfl
    · rw [if_neg hpc, if_neg hpc]

theorem mem_intersperse_of_mem (sep : List Char) (x : List Char) :
    ∀ xs : List (List Char), x ∈ xs → x ∈ xs.intersperse sep
  | [], h => by simp at h
  | [y], h => by simpa using h
  | y :: z :: t, h => by
    rw [List.intersperse_cons₂]
    rcases List.mem_cons.mp h with rfl | h'
    · exact List.mem_cons_self _ _
    · exact List.mem_cons_of_mem _
        (List.mem_cons_of_mem _ (mem_intersperse_of_mem sep x (z :: t) h'))

theorem mem_intercalate_of_mem (sep : List Char) (xs : List (List Char))
    (x : List Char) (hx : x ∈ xs) (c : Char) (hc : c ∈ x) :
    c ∈ List.intercalate sep xs := by
  rw [List.intercalate, List.mem_flatten]
  exact ⟨x, mem_intersperse_of_mem sep x xs hx, hc⟩

theorem mem_replRuns_of_not (p : Char → Bool) :
    ∀ (l : List Char) (c : Char), c ∈ l → p c = false → c ∈ replRuns p l
  | [], c, hc, _ => by simp at hc
  | [a], c, hc, hpc => by
    simp at hc
    subst hc
    rw [replRuns, if_neg (by simp [hpc])]
    exact List.mem_singleton_self _
  | a :: d :: cs, c, hc, hpc => by
    rw [replRuns]
    by_cases hp : p a
    · have hc' : c ∈ d :: cs := by
        rcases List.mem_cons.mp hc with rfl | h'
        · exact absurd hp (by simp [hpc])
        · exact h'
      by_cases hd : p d
      · rw [if_pos hp, if_pos hd]
        exact mem_replRuns_of_not p (d :: cs) c hc' hpc
      · rw [if_pos hp, if_neg hd]
        exact List.mem_cons_of_mem _ (mem_replRuns_of_not p (d :: cs) c hc' hpc)
    · rw [if_neg hp]
      rcases List.mem_cons.mp hc with rfl | h'
      · exact List.mem_cons_self _ _
      · exact List.mem_cons_of_mem _ (mem_replRuns_of_not p (d :: cs) c h' hpc)

theorem mem_dropWhile_of_not (q : Char → Bool) :
    ∀ (l : List Char) (c : Char), c ∈ l → q c = false → c ∈ l.dropWhile q
  | [], c, hc, _ => by simp at hc
  | a :: t, c, hc, hqc => by
    rw [List.dropWhile_cons]
    by_cases hq : q a
    · rw [if_pos hq]
      have hc' : c ∈ t := by
        rcases List.mem_cons.mp hc with rfl | h'
        · exact absurd hq (by simp [hqc])
        · exact h'
      exact mem_dropWhile_of_not q t c hc' hqc
    · rw [if_neg hq]
      exact hc

theorem pyStrip_ne_nil (l : List Char) (c : Char) (hc : c ∈ l)
    (hws : isPySpace c = false) : pyStrip l ≠ [] := by
  unfold pyStrip
  intro h
  rw [List.reverse_eq_nil_iff] at h
  have h1 := mem_dropWhile_of_not isPySpace l c hc hws
  have h2 := mem_dropWhile_of_not isPySpace (l.dropWhile isPySpace).reverse c
    (List.mem_reverse.mpr h1) hws
  rw [h] at h2
  simp at h2

theorem flattenSpans_mem (blocks : List (List (List (ℚ × List Char))))
    (z : ℚ × List Char) (hz : z ∈ flattenSpans blocks) :
    z.2 ≠ [] ∧ ∀ c, z.2.head? = some c → isPySpace c = false := by
  simp only [flattenSpans, List.mem_flatMap, List.mem_filterMap] at hz
  obtain ⟨b, hb, line, hline, sp, hsp, heq⟩ := hz
  by_cases he : (pyStrip sp.2).isEmpty
  · rw [if_pos he] at heq
    simp at heq
  · rw [if_neg he] at heq
    have hz2 : z.2 = pyStrip sp.2 := by
      rw [← Option.some_inj.mp heq]
    constructor
    · rw [hz2]
      simpa [List.isEmpty_iff] using he
    · intro c hc
      rw [hz2] at hc
      exact pyStrip_head _ c hc

/-- C7 counterexample to the claim as stated, at two explicit documents.
First, a metadata title `" T "` (non-blank after trimming) is returned
trimmed to `"T"`, not verbatim.  Second, with no metadata and first-page spans
`(9.9, "World")` then `(10, "Hello")` — visual order `World Hello`, both within
`0.2` of the largest size `10` — the candidate is assembled in font-size order
as `"Hello World"`, not in visual order. -/
theorem extract_pdf_title_cex :
    extract_pdf_title ⟨some " T ".data, none⟩ = some "T".data ∧
    some "T".data ≠ some " T ".data ∧
    extract_pdf_title
        ⟨none, some [[[(mkRat 99 10, "World".data), (10, "Hello".data)]]]⟩ =
      some "Hello World".data ∧
    "Hello World".data ≠ "World Hello".data := by
  exact ⟨by decide, by decide, by decide, by decide⟩

theorem extract_pdf_title_meta (doc : PdfDoc)
    (h : pyStrip (doc.metaTitle.getD []) ≠ []) :
    extract_pdf_title doc = some (pyStrip (doc.metaTitle.getD [])) := by
  simp only [extract_pdf_title]
  rw [if_pos (by simpa [List.isEmpty_iff] using h)]

theorem extract_pdf_title_spans (doc : PdfDoc)
    (blocks : List (List (List (ℚ × List Char))))
    (hm : pyStrip (doc.metaTitle.getD []) = [])
    (hfp : doc.firstPage = some blocks)
    (x : ℚ × List Char) (rest : List (ℚ × List Char))
    (hsort : sortDesc (flattenSpans blocks) = x :: rest) :
    extract_pdf_title doc =
      (let pieces := ((x :: rest).filter
          (fun sp => ratAbs (ratSub sp.1 x.1) < mkRat 2 10)).map (fun sp => sp.2)
       let candidate := pyStrip (replRuns isPySpace (List.intercalate [' '] pieces))
       if !candidate.isEmpty && !startsBad candidate then some candidate else none) := by
  simp only [extract_pdf_title, hm, hfp, hsort]
  simp

/-- C7 (amended): if the metadata title is non-blank after trimming, it is
returned trimmed (not verbatim) without scanning the first page; otherwise the
spans within `0.2` units of the largest first-page font size are concatenated
in stable font-size-descending order (equal sizes keep their visual order; the
overall order is not visual order) with whitespace collapsed, and that
candidate is returned unless it starts with a fixed boilerplate label; if both
routes fail, or the first-page scan raises an internal error, the result is
`none` rather than an error. -/
theorem extract_pdf_title_amended (doc : PdfDoc) :
    (pyStrip (doc.metaTitle.getD []) ≠ [] →
      extract_pdf_title doc = some (pyStrip (doc.metaTitle.getD []))) ∧
    (pyStrip (doc.metaTitle.getD []) ≠ [] → ∀ fp,
      extract_pdf_title ⟨doc.metaTitle, fp⟩ = extract_pdf_title doc) ∧
    (pyStrip (doc.metaTitle.getD []) = [] → doc.firstPage = none →
      extract_pdf_title doc = none) ∧
    (∀ blocks, pyStrip (doc.metaTitle.getD []) = [] → doc.firstPage = some blocks →
      (flattenSpans blocks = [] → extract_pdf_title doc = none) ∧
      (flattenSpans blocks ≠ [] →
        ∃ top : ℚ, top ∈ (flattenSpans blocks).map Prod.fst ∧
          (∀ s ∈ (flattenSpans blocks).map Prod.fst, s ≤ top) ∧
          extract_pdf_title doc =
            (if startsBad (pyStrip (replRuns isPySpace (List.intercalate [' ']
                ((sortDesc ((flattenSpans blocks).filter
                  (fun sp => |sp.1 - top| < 2/10))).map (fun sp => sp.2)))))
             then none
             else some (pyStrip (replRuns isPySpace (List.intercalate [' ']
                ((sortDesc ((flattenSpans blocks).filter
                  (fun sp => |sp.1 - top| < 2/10))).map (fun sp => sp.2)))))))) := by
  have hmk : (mkRat 2 10 : ℚ) = 2/10 := by
    rw [Rat.mkRat_eq_div]
    norm_num
  refine ⟨extract_pdf_title_meta doc, ?_, ?_, ?_⟩
  · intro h fp
    rw [extract_pdf_title_meta doc h, extract_pdf_title_meta ⟨doc.metaTitle, fp⟩ h]
  · intro h hfp
    simp only [extract_pdf_title, h, hfp]
    simp
  · intro blocks hm hfp
    constructor
    · intro hempty
      simp only [extract_pdf_title, hm, hfp]
      rw [show sortDesc (flattenSpans blocks) = [] from by rw [hempty]; rfl]
      simp
    · intro hne
      cases hsort : sortDesc (flattenSpans blocks) with
      | nil =>
        exfalso
        have := length_sortDesc (flattenSpans blocks)
        rw [hsort] at this
        exact hne (List.length_eq_zero.mp this.symm)
      | cons x rest =>
        have hsorted := sortDesc_sortedD (flattenSpans blocks)
        rw [hsort] at hsorted
        rw [SortedD, List.pairwise_cons] at hsorted
        have hxmem : x ∈ flattenSpans blocks := by
          rw [← mem_sortDesc x (flattenSpans blocks), hsort]
          exact List.mem_cons_self x rest
        refine ⟨x.1, List.mem_map_of_mem Prod.fst hxmem, ?_, ?_⟩
        · intro s hs
          obtain ⟨z, hz, rfl⟩ := List.mem_map.mp hs
          have hz' : z ∈ x :: rest := by
            rw [← hsort, mem_sortDesc]
            exact hz
          rcases List.mem_cons.mp hz' with rfl | hz''
          · exact le_refl z.1
          · exact hsorted.1 z hz''
        · have hpred : (fun sp : ℚ × List Char =>
              decide (ratAbs (ratSub sp.1 x.1) < mkRat 2 10)) =
              (fun sp : ℚ × List Char => decide (|sp.1 - x.1| < 2/10)) := by
            funext sp
            rw [ratAbs_eq, ratSub_eq, hmk]
          have hpieces : ((x :: rest).filter
              (fun sp => ratAbs (ratSub sp.1 x.1) < mkRat 2 10)).map (fun sp => sp.2) =
              (sortDesc ((flattenSpans blocks).filter
                (fun sp => |sp.1 - x.1| < 2/10))).map (fun sp => sp.2) := by
            rw [← hsort, filter_sortDesc]
            rw [show ((flattenSpans blocks).filter
                (fun sp => decide (ratAbs (ratSub sp.1 x.1) < mkRat 2 10))) =
              ((flattenSpans blocks).filter
                (fun sp => decide (|sp.1 - x.1| < 2/10))) from by rw [hpred]]
          rw [extract_pdf_title_spans doc blocks hm hfp x rest hsort]
          simp only [hpieces]
          have hcand_ne : pyStrip (replRuns isPySpace (List.intercalate [' ']
              ((sortDesc ((flattenSpans blocks).filter
                (fun sp => |sp.1 - x.1| < 2/10))).map (fun sp => sp.2)))) ≠ [] := by
            obtain ⟨hne2, hhead⟩ := flattenSpans_mem blocks x hxmem
            obtain ⟨c, t, hx2⟩ := List.exists_cons_of_ne_nil hne2
            have hcne : isPySpace c = false := hhead c (by rw [hx2]; rfl)
            have hcx : c ∈ x.2 := by rw [hx2]; exact List.mem_cons_self c t
            have hxf : x ∈ (flattenSpans blocks).filter
                (fun sp => decide (|sp.1 - x.1| < 2/10)) := by
              rw [List.mem_filter]
              refine ⟨hxmem, by norm_num⟩
            have hxs : x ∈ sortDesc ((flattenSpans blocks).filter
                (fun sp => decide (|sp.1 - x.1| < 2/10))) := by
              rw [mem_sortDesc]
              exact hxf
            have hx2mem := List.mem_map_of_mem (fun sp : ℚ × List Char => sp.2) hxs
            have hcint := mem_intercalate_of_mem [' '] _ x.2 hx2mem c hcx
            have hcrep := mem_replRuns_of_not isPySpace _ c hcint hcne
            exact pyStrip_ne_nil _ c hcrep hcne
          by_cases hbad : startsBad (pyStrip (replRuns isPySpace (List.intercalate [' ']
              ((sortDesc ((flattenSpans blocks).filter
                (fun sp => |sp.1 - x.1| < 2/10))).map (fun sp => sp.2)))))
          · rw [if_pos hbad]
            rw [if_neg (by simp [hbad])]
          · rw [if_neg hbad]
            rw [if_pos (by simp [hbad, List.isEmpty_iff, hcand_ne])]

/-- Witness for the amended C7: the non-blank metadata title `" T "` is
returned trimmed, independently of the first page; documents without metadata
and without a readable (or non-empty) first page yield `none`. -/
theorem extract_pdf_title_amended_w :
    extract_pdf_title ⟨some " T ".data, none⟩ = some "T".data ∧
    extract_pdf_title ⟨some "T".data, some [[[(10, "Hello".data)]]]⟩ =
      extract_pdf_title ⟨some "T".data, none⟩ ∧
    extract_pdf_title ⟨none, none⟩ = none ∧
    extract_pdf_title ⟨none, some []⟩ = none := by
  refine ⟨?_, ?_, ?_, ?_⟩
  · have h := (extract_pdf_title_amended ⟨some " T ".data, none⟩).1 (by decide)
    rw [h]
    decide
  · exact (extract_pdf_title_amended ⟨some "T".data, none⟩).2.1 (by decide)
      (some [[[(10, "Hello".data)]]])
  · exact (extract_pdf_title_amended ⟨none, none⟩).2.2.1 (by decide) rfl
  · exact ((extract_pdf_title_amended ⟨none, some []⟩).2.2.2 [] (by decide) rfl).1 (by decide)

theorem matchHeader_shape (l hdr rest : List Char)
    (h : matchHeader l = some (hdr, rest)) :
    ∃ ws sp ds t2, hdr = figureChars ++ ws ++ sp ++ ds ++ t2 ∧
      ws ≠ [] ∧ (∀ c ∈ ws, isPySpace c = true) ∧
      (sp = [] ∨ sp = ['S']) ∧ ds ≠ [] ∧ (∀ c ∈ ds, isDigitC c = true) := by
  simp only [matchHeader] at h
  split at h
  · exact absurd h (by simp)
  · rename_i r1 heq1
    split at h
    · exact absurd h (by simp)
    · rename_i hws
      split at h
      · rename_i r3 heq2
        split at h
        · exact absurd h (by simp)
        · rename_i hds
          split at h
          · rename_i t2 rest2 heq3
            simp only [Option.some_inj, Prod.mk.injEq] at h
            refine ⟨r1.takeWhile isPySpace, ['S'], r3.takeWhile isDigitC, t2,
              ?_, by simpa [List.isEmpty_iff] using hws,
              fun c hc => List.mem_takeWhile_imp hc, Or.inr rfl,
              by simpa [List.isEmpty_iff] using hds,
              fun c hc => List.mem_takeWhile_imp hc⟩
            rw [← h.1]
            simp
          · exact absurd h (by simp)
      · rename_i r2 hnotS
        split at h
        · exact absurd h (by simp)
        · rename_i hds
          split at h
          · rename_i t2 rest2 heq3
            simp only [Option.some_inj, Prod.mk.injEq] at h
            refine ⟨r1.takeWhile isPySpace, [],
              (r1.dropWhile isPySpace).takeWhile isDigitC, t2,
              ?_, by simpa [List.isEmpty_iff] using hws,
              fun c hc => List.mem_takeWhile_imp hc, Or.inl rfl,
              by simpa [List.isEmpty_iff] using hds,
              fun c hc => List.mem_takeWhile_imp hc⟩
            rw [← h.1]
            simp
          · exact absurd h (by simp)

theorem scanCapsF_shape : ∀ (fuel : Nat) (l : List Char) (cap : List Char),
    cap ∈ scanCapsF fuel l → CaptionShape cap
  | 0, _, cap, h => by simp [scanCapsF] at h
  | _ + 1, [], cap, h => by simp [scanCapsF] at h
  | fuel + 1, c :: cs, cap, h => by
    rw [scanCapsF] at h
    cases hm : matchHeader (c :: cs) with
    | none =>
      rw [hm] at h
      exact scanCapsF_shape fuel cs cap h
    | some pr =>
      obtain ⟨hdr, r⟩ := pr
      rw [hm] at h
      simp only at h
      rcases List.mem_cons.mp h with rfl | h'
      · obtain ⟨ws, sp, ds, t2, heq, hws, hwsmem, hsp, hds, hdsmem⟩ :=
          matchHeader_shape (c :: cs) hdr r hm
        exact ⟨ws, sp, ds, t2 ++ (findEnd r).1, by rw [heq]; simp, hws, hwsmem,
          hsp, hds, hdsmem⟩
      · exact scanCapsF_shape fuel (findEnd r).2 cap h'

theorem ws_char_cases (c : Char) (h : isPySpace c = true) :
    c = ' ' ∨ c = '\t' ∨ c = '\n' ∨ c = '\r' ∨ c = '\x0b' ∨ c = '\x0c' := by
  have h' := h
  simp only [isPySpace, Bool.or_eq_true, decide_eq_true_eq] at h'
  tauto

theorem digit_not_ws (c : Char) (h : isDigitC c = true) : isPySpace c = false := by
  by_contra hws
  rw [Bool.not_eq_false] at hws
  have h' : ('0' ≤ c ∧ c ≤ '9') := by simpa [isDigitC] using h
  rcases ws_char_cases c hws with rfl | rfl | rfl | rfl | rfl | rfl <;>
    exact absurd h'.1 (by decide)

theorem digit_ne (c : Char) (h : isDigitC c = true) :
    c ≠ ' ' ∧ c ≠ '\t' ∧ c ≠ '\n' := by
  have hw := digit_not_ws c h
  refine ⟨?_, ?_, ?_⟩ <;> rintro rfl <;> simp [isPySpace] at hw

theorem sub1_cons_not (c : Char) (cs : List Char) (h1 : c ≠ ' ') (h2 : c ≠ '\t') :
    sub1 (c :: cs) = c :: sub1 cs := by
  simp only [sub1]
  rw [if_neg (by simp [h1, h2])]

theorem sub2_cons_not (c : Char) (cs : List Char) (h1 : c ≠ '\n') :
    sub2 (c :: cs) = c :: sub2 cs := by
  simp only [sub2]
  rw [if_neg (by simp [h1])]

theorem sub1_append_clean (z : List Char) :
    ∀ a : List Char, (∀ c ∈ a, c ≠ ' ' ∧ c ≠ '\t') → sub1 (a ++ z) = a ++ sub1 z
  | [], _ => rfl
  | c :: t, ha => by
    rw [List.cons_append,
      sub1_cons_not c _ (ha c (List.mem_cons_self c t)).1 (ha c (List.mem_cons_self c t)).2,
      sub1_append_clean z t (fun d hd => ha d (List.mem_cons_of_mem _ hd)),
      List.cons_append]

theorem sub2_append_clean (z : List Char) :
    ∀ a : List Char, (∀ c ∈ a, c ≠ '\n') → sub2 (a ++ z) = a ++ sub2 z
  | [], _ => rfl
  | c :: t, ha => by
    rw [List.cons_append, sub2_cons_not c _ (ha c (List.mem_cons_self c t)),
      sub2_append_clean z t (fun d hd => ha d (List.mem_cons_of_mem _ hd)),
      List.cons_append]

theorem sub1_ws_block (z : List Char)
    (hz : ∀ u, (sub1 z).head? = some u → u ≠ '\n') :
    ∀ ws : List Char, ws ≠ [] → (∀ c ∈ ws, isPySpace c = true) →
      ∃ ws', sub1 (ws ++ z) = ws' ++ sub1 z ∧ ws' ≠ [] ∧
        ∀ c ∈ ws', isPySpace c = true
  | [], h, _ => absurd rfl h
  | [w], _, hmem => by
    rw [List.singleton_append]
    simp only [sub1]
    split
    · rename_i hcond
      exfalso
      simp only [Bool.and_eq_true, decide_eq_true_eq] at hcond
      exact hz '\n' hcond.2 rfl
    · exact ⟨[w], rfl, by simp, by simpa using hmem⟩
  | w :: w2 :: wt, _, hmem => by
    obtain ⟨ws', heq, hne, hmem'⟩ := sub1_ws_block z hz (w2 :: wt) (by simp)
      (fun c hc => hmem c (List.mem_cons_of_mem _ hc))
    rw [List.cons_append, sub1]
    simp only [heq]
    split
    · exact ⟨ws', rfl, hne, hmem'⟩
    · refine ⟨w :: ws', by rw [List.cons_append], by simp, ?_⟩
      intro c hc
      rcases List.mem_cons.mp hc with rfl | h'
      · exact hmem c (List.mem_cons_self _ _)
      · exact hmem' c h'

theorem sub2_ws_block (z : List Char)
    (hz : ∀ u, (sub2 z).head? = some u → u ≠ '\n') :
    ∀ ws : List Char, ws ≠ [] → (∀ c ∈ ws, isPySpace c = true) →
      ∃ ws', sub2 (ws ++ z) = ws' ++ sub2 z ∧ ws' ≠ [] ∧
        ∀ c ∈ ws', isPySpace c = true
  | [], h, _ => absurd rfl h
  | [w], _, hmem => by
    rw [List.singleton_append]
    simp only [sub2]
    split
    · rename_i hcond
      exfalso
      simp only [Bool.and_eq_true, decide_eq_true_eq] at hcond
      exact hz '\n' hcond.1.2 rfl
    · exact ⟨[w], rfl, by simp, by simpa using hmem⟩
  | w :: w2 :: wt, _, hmem => by
    obtain ⟨ws', heq, hne, hmem'⟩ := sub2_ws_block z hz (w2 :: wt) (by simp)
      (fun c hc => hmem c (List.mem_cons_of_mem _ hc))
    rw [List.cons_append, sub2]
    simp only [heq]
    split
    · exact ⟨ws', rfl, hne, hmem'⟩
    · refine ⟨w :: ws', by rw [List.cons_append], by simp, ?_⟩
      intro c hc
      rcases List.mem_cons.mp hc with rfl | h'
      · exact hmem c (List.mem_cons_self _ _)
      · exact hmem' c h'

theorem sub1_getLast : ∀ l : List Char, l ≠ [] →
    sub1 l ≠ [] ∧ (sub1 l).getLast? = l.getLast?
  | [], h => absurd rfl h
  | [c], _ => by
    simp only [sub1]
    rw [if_neg (by simp)]
    exact ⟨by simp, rfl⟩
  | c :: d :: cs, _ => by
    obtain ⟨hne, hlast⟩ := sub1_getLast (d :: cs) (by simp)
    rw [sub1]
    split
    · exact ⟨hne, by rw [hlast, List.getLast?_cons_cons]⟩
    · obtain ⟨y, ys, hcons⟩ := List.exists_cons_of_ne_nil hne
      refine ⟨by simp, ?_⟩
      rw [hcons, List.getLast?_cons_cons, ← hcons, hlast, List.getLast?_cons_cons]

theorem sub2_getLast : ∀ l : List Char, l ≠ [] →
    sub2 l ≠ [] ∧ (sub2 l).getLast? = l.getLast?
  | [], h => absurd rfl h
  | [c], _ => by
    simp only [sub2]
    rw [if_neg (by simp)]
    exact ⟨by simp, rfl⟩
  | c :: d :: cs, _ => by
    obtain ⟨hne, hlast⟩ := sub2_getLast (d :: cs) (by simp)
    rw [sub2]
    split
    · exact ⟨hne, by rw [hlast, List.getLast?_cons_cons]⟩
    · obtain ⟨y, ys, hcons⟩ := List.exists_cons_of_ne_nil hne
      refine ⟨by simp, ?_⟩
      rw [hcons, List.getLast?_cons_cons, ← hcons, hlast, List.getLast?_cons_cons]

theorem pyStrip_append_keep (pre rest : List Char)
    (hhead : ∀ c, pre.head? = some c → isPySpace c = false)
    (hlast : ∀ c, pre.getLast? = some c → isPySpace c = false)
    (hne : pre ≠ []) :
    ∃ r2, pyStrip (pre ++ rest) = pre ++ r2 := by
  unfold pyStrip
  have h1 : (pre ++ rest).dropWhile isPySpace = pre ++ rest := by
    apply dropWhile_eq_self_of_head
    intro c hc
    cases pre with
    | nil => exact absurd rfl hne
    | cons p ps =>
      rw [List.cons_append] at hc
      simp at hc
      rw [← hc]
      exact hhead p rfl
  rw [h1, List.reverse_append, List.dropWhile_append]
  by_cases hcase : ((rest.reverse).dropWhile isPySpace).isEmpty
  · rw [if_pos hcase]
    have hpre : (pre.reverse).dropWhile isPySpace = pre.reverse := by
      apply dropWhile_eq_self_of_head
      intro c hc
      rw [List.head?_reverse] at hc
      exact hlast c hc
    rw [hpre, List.reverse_reverse]
    exact ⟨[], by simp⟩
  · rw [if_neg hcase, List.reverse_append, List.reverse_reverse]
    exact ⟨_, rfl⟩

theorem pyStrip_shape (cap : List Char) (h : CaptionShape cap) :
    CaptionShape (pyStrip cap) := by
  obtain ⟨ws, sp, ds, rest, rfl, hws, hwsmem, hsp, hds, hdsmem⟩ := h
  have hh : ∀ c, (figureChars ++ ws ++ sp ++ ds).head? = some c →
      isPySpace c = false := by
    intro c hc
    have hF : (figureChars ++ ws ++ sp ++ ds).head? = some 'F' := rfl
    rw [hF] at hc
    rw [← Option.some_inj.mp hc]
    decide
  have hdlast : ∃ e, ds.getLast? = some e ∧ e ∈ ds := by
    cases hgl : ds.getLast? with
    | none => exact absurd (List.getLast?_eq_none_iff.mp hgl) hds
    | some e => exact ⟨e, rfl, List.mem_of_getLast?_eq_some hgl⟩
  obtain ⟨e, he1, he2⟩ := hdlast
  have hl : ∀ c, (figureChars ++ ws ++ sp ++ ds).getLast? = some c →
      isPySpace c = false := by
    intro c hc
    rw [List.getLast?_append, he1] at hc
    simp at hc
    rw [← hc]
    exact digit_not_ws e (hdsmem e he2)
  have hpne : (figureChars ++ ws ++ sp ++ ds) ≠ [] := by simp [figureChars]
  obtain ⟨r2, hr2⟩ := pyStrip_append_keep (figureChars ++ ws ++ sp ++ ds) rest hh hl hpne
  rw [show figureChars ++ ws ++ sp ++ ds ++ rest =
    (figureChars ++ ws ++ sp ++ ds) ++ rest from rfl, hr2]
  exact ⟨ws, sp, ds, r2, rfl, hws, hwsmem, hsp, hds, hdsmem⟩

theorem sub1_shape (cap : List Char) (h : CaptionShape cap) :
    CaptionShape (sub1 cap) := by
  obtain ⟨ws, sp, ds, rest, rfl, hws, hwsmem, hsp, hds, hdsmem⟩ := h
  simp only [List.append_assoc]
  rw [sub1_append_clean _ figureChars (by decide)]
  have hzhead : ∀ u, (sub1 (sp ++ (ds ++ rest))).head? = some u → u ≠ '\n' := by
    intro u hu
    rcases hsp with rfl | rfl
    · rw [List.nil_append] at hu
      obtain ⟨d, ds', hdcons⟩ := List.exists_cons_of_ne_nil hds
      subst hdcons
      have hdn := digit_ne d (hdsmem d (List.mem_cons_self d ds'))
      rw [List.cons_append, sub1_cons_not d _ hdn.1 hdn.2.1] at hu
      simp at hu
      rw [← hu]
      exact hdn.2.2
    · rw [List.singleton_append, sub1_cons_not 'S' _ (by decide) (by decide)] at hu
      simp at hu
      rw [← hu]
      decide
  obtain ⟨ws', heq, hne', hmem'⟩ := sub1_ws_block _ hzhead ws hws hwsmem
  rw [heq]
  have hspcl : ∀ c ∈ sp, c ≠ ' ' ∧ c ≠ '\t' := by
    intro c hc
    rcases hsp with rfl | rfl
    · simp at hc
    · simp at hc
      subst hc
      exact ⟨by decide, by decide⟩
  have hdscl : ∀ c ∈ ds, c ≠ ' ' ∧ c ≠ '\t' :=
    fun c hc => ⟨(digit_ne c (hdsmem c hc)).1, (digit_ne c (hdsmem c hc)).2.1⟩
  have hsub : sub1 (sp ++ (ds ++ rest)) = sp ++ (ds ++ sub1 rest) := by
    rw [sub1_append_clean _ sp hspcl, sub1_append_clean _ ds hdscl]
  rw [hsub]
  exact ⟨ws', sp, ds, sub1 rest, by simp [List.append_assoc], hne', hmem',
    hsp, hds, hdsmem⟩

theorem sub2_shape (cap : List Char) (h : CaptionShape cap) :
    CaptionShape (sub2 cap) := by
  obtain ⟨ws, sp, ds, rest, rfl, hws, hwsmem, hsp, hds, hdsmem⟩ := h
  simp only [List.append_assoc]
  rw [sub2_append_clean _ figureChars (by decide)]
  have hzhead : ∀ u, (sub2 (sp ++ (ds ++ rest))).head? = some u → u ≠ '\n' := by
    intro u hu
    rcases hsp with rfl | rfl
    · rw [List.nil_append] at hu
      obtain ⟨d, ds', hdcons⟩ := List.exists_cons_of_ne_nil hds
      subst hdcons
      have hdn := digit_ne d (hdsmem d (List.mem_cons_self d ds'))
      rw [List.cons_append, sub2_cons_not d _ hdn.2.2] at hu
      simp at hu
      rw [← hu]
      exact hdn.2.2
    · rw [List.singleton_append, sub2_cons_not 'S' _ (by decide)] at hu
      simp at hu
      rw [← hu]
      decide
  obtain ⟨ws', heq, hne', hmem'⟩ := sub2_ws_block _ hzhead ws hws hwsmem
  rw [heq]
  have hspcl : ∀ c ∈ sp, c ≠ '\n' := by
    intro c hc
    rcases hsp with rfl | rfl
    · simp at hc
    · simp at hc
      subst hc
      decide
  have hdscl : ∀ c ∈ ds, c ≠ '\n' := fun c hc => (digit_ne c (hdsmem c hc)).2.2
  have hsub : sub2 (sp ++ (ds ++ rest)) = sp ++ (ds ++ sub2 rest) := by
    rw [sub2_append_clean _ sp hspcl, sub2_append_clean _ ds hdscl]
  rw [hsub]
  exact ⟨ws', sp, ds, sub2 rest, by simp [List.append_assoc], hne', hmem',
    hsp, hds, hdsmem⟩

/-- C10: every caption returned by `extract_captions` is non-empty, carries no
leading or trailing whitespace (its first character is the `F` of `Figure` and
its last character is not whitespace), and begins with the literal `Figure`
followed by at least one whitespace character, an optional `S`, and at least
one digit — the figure label the assembler's bold-prefix rendering relies on. -/
theorem extract_captions_label (t cap : List Char)
    (h : cap ∈ extract_captions t) :
    cap ≠ [] ∧ cap.head? = some 'F' ∧
    (∀ c, cap.getLast? = some c → isPySpace c = false) ∧ CaptionShape cap := by
  simp only [extract_captions, List.mem_map] at h
  obtain ⟨cap0, hcap0, rfl⟩ := h
  have hshape0 : CaptionShape cap0 := scanCapsF_shape _ _ cap0 hcap0
  have hshape1 : CaptionShape (pyStrip cap0) := pyStrip_shape cap0 hshape0
  have hshape2 : CaptionShape (sub1 (pyStrip cap0)) := sub1_shape _ hshape1
  have hshape3 : CaptionShape (sub2 (sub1 (pyStrip cap0))) := sub2_shape _ hshape2
  have hne3 : sub2 (sub1 (pyStrip cap0)) ≠ [] := by
    obtain ⟨ws, sp, ds, rest, heq, -, -, -, -, -⟩ := hshape3
    rw [heq]
    simp [figureChars]
  have hhead3 : (sub2 (sub1 (pyStrip cap0))).head? = some 'F' := by
    obtain ⟨ws, sp, ds, rest, heq, -, -, -, -, -⟩ := hshape3
    rw [heq]
    rfl
  have hlast3 : ∀ c, (sub2 (sub1 (pyStrip cap0))).getLast? = some c →
      isPySpace c = false := by
    intro c hc
    have hp0 : pyStrip cap0 ≠ [] := by
      obtain ⟨ws, sp, ds, rest, heq, -, -, -, -, -⟩ := hshape1
      rw [heq]
      simp [figureChars]
    obtain ⟨hne1, hl1⟩ := sub1_getLast (pyStrip cap0) hp0
    obtain ⟨hne2, hl2⟩ := sub2_getLast _ hne1
    rw [hl2, hl1] at hc
    exact pyStrip_getLast cap0 c hc
  exact ⟨hne3, hhead3, hlast3, hshape3⟩

/-- Witness for C10: the caption extracted from the two-figure test text
satisfies all the label-shape properties. -/
theorem extract_captions_label_w :
    "Figure 1. A cell.".data ∈
      extract_captions "Figure 1. A cell.\nFigure 2. Another cell.".data ∧
    ("Figure 1. A cell.".data ≠ [] ∧
      ("Figure 1. A cell.".data).head? = some 'F' ∧
      (∀ c, ("Figure 1. A cell.".data).getLast? = some c → isPySpace c = false) ∧
      CaptionShape "Figure 1. A cell.".data) :=
  ⟨by decide, extract_captions_label "Figure 1. A cell.\nFigure 2. Another cell.".data
    "Figure 1. A cell.".data (by decide)⟩
